import Mathlib

/-!
Verification development for the bpg turn-based RPG effect engine.

The TypeScript sources under `src/` define the stat identifiers
(`STATS`, `StatFlat`, `StatMult` in `src/src/lib/stats.ts`) and the
`Actor` / `ActorProperty` skeleton; the event pipeline, stat aggregator,
effect store and turn scheduler are specified in the design documents and
are modelled here from the specification (each such definition carries a
doc comment starting `Modelled from the spec:`).

Numeric conventions: TypeScript `number` values documented as integers
become `Int`; values documented as floats (multipliers, percents) become
`Rat`, so every computation stays exact and executable.
-/

namespace BPG

/-- The `STATS` enum from `src/src/lib/stats.ts`: exactly five members,
STR, DEX, INT, LUK, WIS. -/
inductive STATS where
  | STR
  | DEX
  | INT
  | LUK
  | WIS
deriving DecidableEq, Repr

/-- The string value each `STATS` member carries in the TypeScript enum. -/
def STATS.value : STATS → String
  | .STR => "stat.strength"
  | .DEX => "stat.dexterity"
  | .INT => "stat.intelligence"
  | .LUK => "stat.luck"
  | .WIS => "stat.wisdom"

/-- `StatFlat` from `src/src/lib/stats.ts`: a flat (additive) stat
contribution; its `value` is documented "always an integer". -/
structure StatFlat where
  stat : STATS
  value : Int
deriving DecidableEq

/-- `StatMult` from `src/src/lib/stats.ts`: a multiplicative stat
contribution; its `value` is documented "always a float", embedded as `Rat`. -/
structure StatMult where
  stat : STATS
  value : Rat
deriving DecidableEq

/-- The source's `type Action` is an empty object type (a stub):
embedded as a structure with no fields. -/
structure ActionStub where
deriving DecidableEq

/-- The source's `type Effect` is an empty object type (a stub):
embedded as a structure with no fields. -/
structure EffectStub where
deriving DecidableEq

/-- The `stats` component of `ActorProperty` in the source: optional
`flat` and `mult` lists, both absent by default. -/
structure StatsGrant where
  flat : Option (List StatFlat) := none
  mult : Option (List StatMult) := none
deriving DecidableEq

/-- `ActorProperty` from the source: it carries exactly one optional
member, `stats`, holding optional flat and mult contribution lists.
No other member is declared on the type. -/
structure ActorProperty where
  stats : Option StatsGrant := none
deriving DecidableEq

/-- The `Actor` class from the source, with the field initializers used
by its constructor: `name = "nameme"`, `uuid = "needsUuid"`,
`useTurnOrder?: boolean = false`, and the optional `effects` and
`properties` collections left absent (`undefined`, embedded `none`). -/
structure Actor where
  name : String := "nameme"
  uuid : String := "needsUuid"
  useTurnOrder : Option Bool := some false
  effects : Option (List EffectStub) := none
  properties : Option (List ActorProperty) := none

/-- Modelled from the spec: the **PropertyGrant** bundle of section 3 —
"optional flat/percent stat contributions, optional list of Action
definitions, optional list of Effect definitions". The source's
`ActorProperty` (the symbol the spec's PropertyGrant corresponds to)
declares only the stat contributions; this second definition follows the
spec's words so the two can be compared. -/
structure PropertyGrantSpec where
  stats : Option StatsGrant := none
  actions : Option (List ActionStub) := none
  effects : Option (List EffectStub) := none
deriving DecidableEq

/-- The erasure taking a spec-shaped grant to what the source's
`ActorProperty` actually stores: only the `stats` member survives. -/
def PropertyGrantSpec.toActorProperty (g : PropertyGrantSpec) : ActorProperty :=
  { stats := g.stats }

/-- A concrete spec-shaped grant carrying an Action definition. -/
def grantWithAction : PropertyGrantSpec :=
  { stats := none, actions := some [⟨⟩], effects := none }

/-- A concrete spec-shaped grant carrying nothing at all. -/
def grantEmpty : PropertyGrantSpec :=
  { stats := none, actions := none, effects := none }

/-- The flat stat entries granted by an `ActorProperty`: an absent
`stats` member or an absent `flat` list grants no entries. -/
def entriesFlat (p : ActorProperty) : List StatFlat :=
  match p.stats with
  | none => []
  | some sg => sg.flat.getD []

/-- The multiplicative stat entries granted by an `ActorProperty`: an
absent `stats` member or an absent `mult` list grants no entries. -/
def entriesMult (p : ActorProperty) : List StatMult :=
  match p.stats with
  | none => []
  | some sg => sg.mult.getD []

/-- Modelled from the spec: the flat contribution of a single grant for a
single stat (Stat Aggregator, spec section 4.3; the aggregator is not
implemented under `src/`). Entries for other stats are skipped, and a
grant with no entry for the stat contributes the neutral element `0`,
mirroring `... + (grants.stats?.flat?.[stat] || 0)` in the design notes. -/
def flatOf (p : ActorProperty) (s : STATS) : Int :=
  (entriesFlat p).foldl (fun acc f => acc + (if f.stat = s then f.value else 0)) 0

/-- Modelled from the spec: the percent multiplier of a single grant for a
single stat (spec section 4.3). A grant with no entry for the stat
contributes the neutral element `1.0`, mirroring
`... * (grants.stats?.percent?.[stat] || 1.0)` in the design notes. -/
def multOf (p : ActorProperty) (s : STATS) : Rat :=
  (entriesMult p).foldl (fun acc m => acc * (if m.stat = s then m.value else 1)) 1

/-- Modelled from the spec: the inputs the Stat Aggregator reads — base
stats, the class grant, equipped items' grants, and active buffs' grants
(spec sections 3 and 4.3). -/
structure AggActor where
  baseStats : STATS → Int
  classGrant : ActorProperty
  equipment : List ActorProperty
  buffs : List ActorProperty

/-- Modelled from the spec: `effectiveStat(actor, statId)` (spec section
4.3), recomputed from scratch on every call: start from the base stat,
add the class grant's flat contribution, add each equipped item's flat
contribution, then multiply the flat sum by every active buff's percent
multiplier. -/
def effectiveStat (a : AggActor) (s : STATS) : Rat :=
  let withClass : Int := a.baseStats s + flatOf a.classGrant s
  let flatSum : Int := a.equipment.foldl (fun acc it => acc + flatOf it s) withClass
  let pct : Rat := a.buffs.foldl (fun acc b => acc * multOf b s) 1
  (flatSum : Rat) * pct

/-- A concrete aggregation actor used to witness the aggregator theorem. -/
def aggSample : AggActor :=
  { baseStats := fun _ => 5
    classGrant := { stats := none }
    equipment := [{ stats := some { flat := some [⟨.STR, 3⟩], mult := none } }]
    buffs := [{ stats := some { flat := none, mult := some [⟨.STR, 2⟩] } }] }

/-- Modelled from the spec: an Event flowing through the pipeline (spec
section 3; the source's `type Event` is an empty stub). Fields: event
type, source and target actor identifiers, the base-value and
current-value sets (association lists from value kind to amount), string
flags, integer depth, and the `cancelled` marker set during validation. -/
structure Event where
  type : String
  source : String
  target : String
  baseValue : List (String × Rat)
  currentValue : List (String × Rat)
  flags : List String
  depth : Nat
  cancelled : Bool
deriving DecidableEq

/-- Modelled from the spec: the data an action or reaction handler
supplies when constructing an event — everything except the depth (set by
the pipeline) and the current values (which "start equal to base"). -/
structure EventSpec where
  type : String
  source : String
  target : String
  baseValue : List (String × Rat)
  flags : List String
deriving DecidableEq

/-- Modelled from the spec: event construction — current values start
equal to base values and the `cancelled` marker starts false (spec
section 3, Event lifecycle). -/
def mkEvent (sp : EventSpec) (depth : Nat) : Event :=
  { type := sp.type, source := sp.source, target := sp.target
    baseValue := sp.baseValue, currentValue := sp.baseValue
    flags := sp.flags, depth := depth, cancelled := false }

/-- Modelled from the spec: the four effect-extensible pipeline phases
(spec section 3, Effect attributes). -/
inductive Phase where
  | metaMod
  | modification
  | validation
  | reaction
deriving DecidableEq

/-- Modelled from the spec: an interceptor registered by a
meta-modification handler — "a transformation function keyed to a
(modification-effect-identity, value-kind) pair" (spec section 4.1
phase 2), held only for the current event's processing. -/
structure Interceptor where
  targetEffect : String
  valueKind : String
  transform : Rat → Rat

/-- Modelled from the spec: an Effect registered with the pipeline (spec
section 3; the source's `type Effect` is an empty stub): identifier,
owner, phase, numeric priority, listened-for event types, the
effect-defined applicability condition, and one handler per phase shape —
meta handlers return interceptors, modification handlers return
current-value updates, validation handlers return an allow decision, and
reaction handlers return specs of new events to spawn. -/
structure Effect where
  id : String
  owner : String
  phase : Phase
  priority : Int
  eventTypes : List String
  applicable : Event → Bool
  metaHandler : Event → List Interceptor
  modHandler : List Interceptor → Event → List (String × Rat)
  valHandler : Event → Bool
  reactHandler : Event → List EventSpec

/-- Modelled from the spec: the pipeline filter for applicability — "the
Pipeline only filters by event type; all other applicability logic lives
inside each Effect handler" (spec section 4.1) — plus the phase the
effect registered for. -/
def isApplicable (ph : Phase) (e : Event) (f : Effect) : Bool :=
  decide (f.phase = ph) && f.eventTypes.contains e.type && f.applicable e

/-- Insert an effect into a priority-descending list, after every effect
of greater or equal priority, so that equal priorities keep registration
order (spec section 4.1: "ties broken by registration order"). -/
def insertDesc (f : Effect) : List Effect → List Effect
  | [] => [f]
  | g :: gs => if f.priority ≤ g.priority then g :: insertDesc f gs
               else f :: g :: gs

/-- Stable sort by descending priority, built by inserting effects in
registration order. -/
def sortDesc (fs : List Effect) : List Effect :=
  fs.foldl (fun acc f => insertDesc f acc) []

/-- Modelled from the spec: the effects a phase runs for an event —
registered effects filtered by phase and event type (and the
effect-defined applicability), in descending priority with registration
order breaking ties (spec section 4.1). -/
def applicableSorted (effects : List Effect) (ph : Phase) (e : Event) :
    List Effect :=
  sortDesc (effects.filter (isApplicable ph e))

/-- Look a value kind up in a value set; missing kinds read as 0. -/
def getVal : List (String × Rat) → String → Rat
  | [], _ => 0
  | (k2, v) :: rest, k => if k2 = k then v else getVal rest k

/-- Write a value kind in a value set; only existing keys are written, so
the key set never changes (spec invariant: "current-value set always has
the same keys as base-value set; only values change"). -/
def setVal : List (String × Rat) → String → Rat → List (String × Rat)
  | [], _, _ => []
  | (k2, x) :: rest, k, v =>
      if k2 = k then (k2, v) :: rest else (k2, x) :: setVal rest k v

/-- Apply a modification handler's value updates in order. -/
def applyUpdates (vals : List (String × Rat)) (ups : List (String × Rat)) :
    List (String × Rat) :=
  ups.foldl (fun vs kv => setVal vs kv.1 kv.2) vals

/-- The key set of a value set. -/
def keysOf (vals : List (String × Rat)) : List String :=
  vals.map Prod.fst

/-- Modelled from the spec: a modification handler "may read any
interceptor registered against it" — apply every interceptor keyed to
this (effect identity, value kind) pair to the pending delta (spec
section 4.1 phases 1 and 2). -/
def interceptApply (ints : List Interceptor) (effId k : String) (v : Rat) :
    Rat :=
  ints.foldl
    (fun x i =>
      if i.targetEffect = effId ∧ i.valueKind = k then i.transform x else x) v

/-- Modelled from the spec: the meta-modification phase (spec section 4.1
phase 2) — every applicable meta effect registers its interceptors; the
event itself is not mutated (meta handlers structurally cannot touch it). -/
def runMetaPhase (effects : List Effect) (e : Event) : List Interceptor :=
  (applicableSorted effects .metaMod e).foldl
    (fun acc f => acc ++ f.metaHandler e) []

/-- Run one modification effect: its handler's updates are written into
the event's current values (and nothing else). -/
def applyMod (ints : List Interceptor) (e : Event) (f : Effect) : Event :=
  { e with currentValue := applyUpdates e.currentValue (f.modHandler ints e) }

/-- Modelled from the spec: the modification phase (spec section 4.1
phase 3) — applicable modification effects run in descending priority
(100 before 50), each updating the current values. -/
def runModPhase (effects : List Effect) (ints : List Interceptor)
    (e : Event) : Event :=
  (applicableSorted effects .modification e).foldl (applyMod ints) e

/-- Sequential first-cancel-wins validation: the first handler returning
false decides, and the handlers after it are never consulted. -/
def validationAllows : List Effect → Event → Bool
  | [], _ => true
  | f :: fs, e => if f.valHandler e then validationAllows fs e else false

/-- Modelled from the spec: the validation phase (spec section 4.1
phase 4) — the event is marked cancelled when the first applicable
validation handler returns false. -/
def runValPhase (effects : List Effect) (e : Event) : Event :=
  { e with cancelled :=
      e.cancelled || !(validationAllows (applicableSorted effects .validation e) e) }

/-- The event as it stands when validation begins: after the
meta-modification and modification phases. -/
def afterPhases (effects : List Effect) (e : Event) : Event :=
  runModPhase effects (runMetaPhase effects e) e

/-- Modelled from the spec: built-in resolution (spec section 4.1
phase 5) — the only step mutating persistent actor state: damage
subtracts the final current value from the target's hp, heal adds it. -/
def resolve (gs : String → Rat) (e : Event) : String → Rat :=
  if e.type = "damage" then
    fun a => if a = e.target then gs a - getVal e.currentValue "damage" else gs a
  else if e.type = "heal" then
    fun a => if a = e.target then gs a + getVal e.currentValue "heal" else gs a
  else gs

/-- Modelled from the spec: the reaction phase (spec section 4.1
phase 6) — every applicable reaction handler runs and its spawned events
are constructed with depth = parent depth + 1. -/
def runReactions (effects : List Effect) (e : Event) : List Event :=
  (applicableSorted effects .reaction e).foldl
    (fun acc f => acc ++ (f.reactHandler e).map (fun sp => mkEvent sp (e.depth + 1)))
    []

/-- Modelled from the spec: the pipeline's mutable state — the event
queue, per-actor hp, and the logs of resolved and depth-dropped events. -/
structure PipelineState where
  queue : List Event
  actors : String → Rat
  resolvedLog : List Event
  droppedLog : List Event

/-- Modelled from the spec: processing of one dequeued event (spec
section 4.1): the depth guard drops the event before any phase runs;
otherwise the meta-modification, modification and validation phases run,
a cancelled event skips resolution and reaction entirely, and a surviving
event is resolved and its reactions are appended to the queue. -/
def processEvent (maxD : Nat) (effects : List Effect) (st : PipelineState)
    (e : Event) : PipelineState :=
  if maxD < e.depth then { st with droppedLog := st.droppedLog ++ [e] }
  else
    let e2 := runValPhase effects (afterPhases effects e)
    if e2.cancelled then st
    else
      { queue := st.queue ++ runReactions effects e2
        actors := resolve st.actors e2
        resolvedLog := st.resolvedLog ++ [e2]
        droppedLog := st.droppedLog }

/-- Modelled from the spec: `drain()` processes the queue to exhaustion;
because reactions may enqueue forever, the embedding takes explicit fuel,
so that every finite prefix of the (possibly unbounded) drain run is
covered. -/
def drain (maxD : Nat) (effects : List Effect) : Nat → PipelineState → PipelineState
  | 0, st => st
  | Nat.succ fuel, st =>
      match st.queue with
      | [] => st
      | e :: rest =>
          drain maxD effects fuel (processEvent maxD effects { st with queue := rest } e)

/-- The configured depth maximum's default value (spec section 4.1
phase 1: "a configured maximum (default 10)"). -/
def maxDepthDefault : Nat := 10

/-- Decidable form of "every event in the list has depth at most n". -/
def allDepthLE (l : List Event) (n : Nat) : Bool :=
  l.all fun e => decide (e.depth ≤ n)

/-- A multiplicative modification effect at priority 100: multiplies the
current value of kind `k` by `m` (spec section 4.1 phase 3). -/
def multiplyEffect (effId et k : String) (m : Rat) : Effect :=
  { id := effId, owner := "", phase := .modification, priority := 100
    eventTypes := [et], applicable := fun _ => true
    metaHandler := fun _ => []
    modHandler := fun _ e => [(k, getVal e.currentValue k * m)]
    valHandler := fun _ => true
    reactHandler := fun _ => [] }

/-- An additive modification effect at priority 50: adds `a` (as adjusted
by any interceptor registered against it) to the current value of kind
`k` (spec section 4.1 phases 2 and 3). -/
def flatAddEffect (effId et k : String) (a : Rat) : Effect :=
  { id := effId, owner := "", phase := .modification, priority := 50
    eventTypes := [et], applicable := fun _ => true
    metaHandler := fun _ => []
    modHandler := fun ints e =>
      [(k, getVal e.currentValue k + interceptApply ints effId k a)]
    valHandler := fun _ => true
    reactHandler := fun _ => [] }

/-- A validation effect that always blocks (the spec's 30%-chance block
with the roll stubbed to its blocking branch). -/
def blockEffect (effId et : String) : Effect :=
  { id := effId, owner := "", phase := .validation, priority := 0
    eventTypes := [et], applicable := fun _ => true
    metaHandler := fun _ => []
    modHandler := fun _ _ => []
    valHandler := fun _ => false
    reactHandler := fun _ => [] }

/-- A reaction effect that re-spawns the same event type on the same
actors without any blocking flag: the indefinitely recursing chain of the
spec's depth-guard property. -/
def pingReaction (effId et : String) : Effect :=
  { id := effId, owner := "", phase := .reaction, priority := 0
    eventTypes := [et], applicable := fun _ => true
    metaHandler := fun _ => []
    modHandler := fun _ _ => []
    valHandler := fun _ => true
    reactHandler := fun e =>
      [{ type := e.type, source := e.source, target := e.target
         baseValue := e.baseValue, flags := e.flags }] }

/-- A concrete damage event spec on a base of 50. -/
def damageSpec : EventSpec :=
  { type := "damage", source := "attacker", target := "defender"
    baseValue := [("damage", 50)], flags := [] }

/-- An empty pipeline state with every actor at 100 hp. -/
def stEmpty : PipelineState :=
  { queue := [], actors := fun _ => 100, resolvedLog := [], droppedLog := [] }

/-- A pipeline state whose queue holds one root damage event. -/
def stRoot : PipelineState :=
  { queue := [mkEvent damageSpec 0], actors := fun _ => 100
    resolvedLog := [], droppedLog := [] }

/-- A concrete event already beyond the default depth maximum. -/
def deepEvent : Event := mkEvent damageSpec 11

/-- A root damage event with parameterised endpoints and base value. -/
def dmgEvent (s t : String) (b : Rat) : Event :=
  mkEvent { type := "damage", source := s, target := t
            baseValue := [("damage", b)], flags := [] } 0

/-- Modelled from the spec: an effect as held by an actor's Effect Store
for registration purposes — its identity and the event types it listens
for (spec section 4.2; the store is not implemented under `src/`). -/
structure StoredEffect where
  id : String
  eventTypes : List String
deriving DecidableEq

/-- Modelled from the spec: the per-actor Effect Store with its three
views (spec section 4.2) — the flat collection (each entry tagged with
the source that contributed it), the source index (source identifier to
its effects; an absent bucket reads as the empty list), and the
Pipeline's per-event-type listener index. -/
structure Store where
  flat : List (String × StoredEffect)
  sourceIndex : String → List StoredEffect
  listenerIndex : String → List StoredEffect

/-- A store with nothing registered. -/
def Store.empty : Store :=
  { flat := [], sourceIndex := fun _ => [], listenerIndex := fun _ => [] }

/-- Modelled from the spec: `addEffect(effect, source)` (spec section
4.2) — append to the flat collection, append to the source's bucket
(creating it if absent), and register the effect under each event type it
listens for. -/
def Store.addEffect (s : Store) (e : StoredEffect) (src : String) : Store :=
  { flat := s.flat ++ [(src, e)]
    sourceIndex := fun S =>
      if S = src then s.sourceIndex S ++ [e] else s.sourceIndex S
    listenerIndex := fun t =>
      if e.eventTypes.contains t then s.listenerIndex t ++ [e]
      else s.listenerIndex t }

/-- Modelled from the spec: `removeEffect(effect)` (spec section 4.2) —
remove the effect (by identity) from the flat collection, from whichever
source bucket references it, and from the Pipeline's listener index. -/
def Store.removeEffect (s : Store) (e : StoredEffect) : Store :=
  { flat := s.flat.filter fun p => decide (p.2.id ≠ e.id)
    sourceIndex := fun S => (s.sourceIndex S).filter fun x => decide (x.id ≠ e.id)
    listenerIndex := fun t => (s.listenerIndex t).filter fun x => decide (x.id ≠ e.id) }

/-- Modelled from the spec: `removeEffectsFromSource(source)` (spec
section 4.2) — remove every effect of the source's bucket from the flat
collection, unregister each from the Pipeline's listener index, and
delete the bucket; a no-op when the source has no effects. -/
def Store.removeEffectsFromSource (s : Store) (src : String) : Store :=
  let es := s.sourceIndex src
  { flat := s.flat.filter fun p => es.all fun x => decide (x.id ≠ p.2.id)
    sourceIndex := fun S => if S = src then [] else s.sourceIndex S
    listenerIndex := fun t =>
      (s.listenerIndex t).filter fun x => es.all fun y => decide (y.id ≠ x.id) }

/-- An Effect Store operation, for reasoning over arbitrary operation
sequences. -/
inductive StoreOp where
  | add (e : StoredEffect) (src : String)
  | remove (e : StoredEffect)
  | removeSource (src : String)

/-- Apply one store operation. -/
def Store.applyOp (s : Store) : StoreOp → Store
  | .add e src => s.addEffect e src
  | .remove e => s.removeEffect e
  | .removeSource src => s.removeEffectsFromSource src

/-- Apply a sequence of store operations in order. -/
def Store.run (s : Store) : List StoreOp → Store
  | [] => s
  | op :: ops => (s.applyOp op).run ops

/-- Whether one operation respects the spec's usage rule for the store:
"adding the same effect identity twice ... is a usage error to avoid"
(spec section 4.2), so an added effect's identity must be fresh; removals
are always fine. -/
def freshFor (s : Store) : StoreOp → Bool
  | .add e _ => s.flat.all fun p => decide (p.2.id ≠ e.id)
  | .remove _ => true
  | .removeSource _ => true

/-- Whether a whole operation sequence respects the usage rule along the
way. -/
def validOps (s : Store) : List StoreOp → Bool
  | [] => true
  | op :: ops => freshFor s op && validOps (s.applyOp op) ops

/-- The spec's partition invariant (section 3): an effect tagged with
source S sits in the flat collection exactly when it sits in
source-index[S]. -/
def partitionConsistent (s : Store) : Prop :=
  ∀ (S : String) (e : StoredEffect), (S, e) ∈ s.flat ↔ e ∈ s.sourceIndex S

/-- Effect identities in the flat collection are pairwise distinct (the
state reached under the spec's no-double-add usage rule). -/
def idsNodup (s : Store) : Prop :=
  (s.flat.map fun p => p.2.id).Nodup

/-- The Effect Store invariant carried through operation sequences. -/
def StoreInv (s : Store) : Prop :=
  partitionConsistent s ∧ idsNodup s

/-- After `removeEffectsFromSource S`, nothing the source had contributed
survives in the flat collection or in the listener index of any event
type. -/
def cleanRemoval (s : Store) (S : String) : Prop :=
  ∀ e ∈ s.sourceIndex S,
    (∀ p ∈ (s.removeEffectsFromSource S).flat, p.2.id ≠ e.id)
    ∧ ∀ (t : String), ∀ x ∈ (s.removeEffectsFromSource S).listenerIndex t,
        x.id ≠ e.id

/-- A concrete operation sequence: equip a sword granting two effects,
apply a buff granting one, then unequip the sword. -/
def opsSample : List StoreOp :=
  [.add ⟨"thorns", ["damage"]⟩ "item:sword1",
   .add ⟨"flame", ["damage", "heal"]⟩ "item:sword1",
   .add ⟨"haste", ["turnStart"]⟩ "buff:haste1",
   .removeSource "item:sword1"]

/-- Modelled from the spec: a scheduler entry pairs an actor with its
effective speed; speed reaches the scheduler through the Stat Aggregator
(spec section 4.4), and since the source's `STATS` enum has no speed
identifier, the model carries the aggregated speed as a field. -/
structure SchedActor where
  actor : Actor
  speed : Rat

/-- Modelled from the spec: the actor's effective speed as consumed by
the Turn Scheduler. -/
def effectiveSpeed (sa : SchedActor) : Rat := sa.speed

/-- Modelled from the spec: the Turn Scheduler's state — per-actor
ticks-remaining-until-next-action (spec section 4.4). -/
structure Scheduler where
  entries : List (String × Rat)

/-- Set (or insert) an actor's ticks-remaining entry. -/
def updateTicks : List (String × Rat) → String → Rat → List (String × Rat)
  | [], k, v => [(k, v)]
  | (k2, x) :: rest, k, v =>
      if k2 = k then (k, v) :: rest else (k2, x) :: updateTicks rest k v

/-- Read an actor's ticks-remaining entry. -/
def lookupTicks : List (String × Rat) → String → Option Rat
  | [], _ => none
  | (k2, v) :: rest, k => if k2 = k then some v else lookupTicks rest k

/-- Modelled from the spec: the delay formula `10000 / effectiveSpeed`,
scaled by the action's own speed multiplier (spec section 4.4). -/
def actionDelay (sa : SchedActor) (mult : Rat) : Rat :=
  10000 / effectiveSpeed sa * mult

/-- Modelled from the spec:
`scheduleNext(actor, speedOverrideMultiplier = 1.0)` sets the actor's
ticks-remaining to the scaled delay (spec section 4.4). -/
def scheduleNext (s : Scheduler) (sa : SchedActor) (mult : Rat) : Scheduler :=
  ⟨updateTicks s.entries sa.actor.uuid (actionDelay sa mult)⟩

/-- Modelled from the spec: `addActor` joins the schedule, but an actor
whose turn-participation flag is not set to true never appears in it
(spec section 4.4: non-participating actors never appear in the
schedule). -/
def addActor (s : Scheduler) (sa : SchedActor) : Scheduler :=
  if sa.actor.useTurnOrder = some true then
    ⟨s.entries ++ [(sa.actor.uuid, actionDelay sa 1)]⟩
  else s

end BPG

namespace BPG

/-- C9: the stat identifiers defined by the code are exactly the five of
the `STATS` enum; every `StatFlat` and `StatMult` contribution refers to
one of them, and no `stat.speed` or `stat.hp` identifier exists. -/
theorem stats_exactly_five :
    (∀ s : STATS, s.value ∈
      ["stat.strength", "stat.dexterity", "stat.intelligence",
       "stat.luck", "stat.wisdom"])
    ∧ (∀ s : STATS, s.value ≠ "stat.speed" ∧ s.value ≠ "stat.hp")
    ∧ (∀ f : StatFlat, f.stat = .STR ∨ f.stat = .DEX ∨ f.stat = .INT ∨
        f.stat = .LUK ∨ f.stat = .WIS)
    ∧ (∀ m : StatMult, m.stat = .STR ∨ m.stat = .DEX ∨ m.stat = .INT ∨
        m.stat = .LUK ∨ m.stat = .WIS) := by
  refine ⟨?_, ?_, ?_, ?_⟩
  · intro s; cases s <;> simp [STATS.value]
  · intro s; cases s <;> simp [STATS.value]
  · intro f; rcases f with ⟨st, v⟩; cases st <;> simp
  · intro m; rcases m with ⟨st, v⟩; cases st <;> simp

/-- C8 counterexample: the claim says an `ActorProperty`/PropertyGrant may
carry an optional list of Action definitions, but the source type stores
only `stats`: two spec-shaped grants differing exactly in their Action
list erase to the same `ActorProperty`, so the Action (and Effect) lists
are not carried by the code's type. -/
theorem actorProperty_lacks_actions_cex :
    grantWithAction ≠ grantEmpty ∧
      grantWithAction.toActorProperty = grantEmpty.toActorProperty :=
  ⟨by decide, rfl⟩

/-- C8 (amended): every `ActorProperty` carries only the optional
flat/mult stat contributions — it is fully determined by its `stats`
member, leaving no room for Action or Effect definition lists. -/
theorem actorProperty_determined_by_stats
    (p q : ActorProperty) (h : p.stats = q.stats) : p = q := by
  cases p; cases q; simpa using h

/-- Witness for C8's amended theorem at a concrete input. -/
theorem actorProperty_determined_by_stats_instance :
    ({ stats := none } : ActorProperty) = { stats := none } :=
  actorProperty_determined_by_stats { stats := none } { stats := none } rfl

/-- A left fold that keeps adding is the starting value plus the sum of
the mapped list. -/
theorem foldl_add_eq_sum {α : Type} (g : α → Int) :
    ∀ (l : List α) (c : Int),
      l.foldl (fun acc x => acc + g x) c = c + (l.map g).sum := by
  intro l
  induction l with
  | nil => intro c; simp
  | cons x xs ih => intro c; simp [List.foldl, ih (c + g x), add_assoc]

/-- A left fold that keeps multiplying is the starting value times the
product of the mapped list. -/
theorem foldl_mul_eq_prod {α : Type} (g : α → Rat) :
    ∀ (l : List α) (c : Rat),
      l.foldl (fun acc x => acc * g x) c = c * (l.map g).prod := by
  intro l
  induction l with
  | nil => intro c; simp
  | cons x xs ih => intro c; simp [List.foldl, ih (c * g x), mul_assoc]

/-- C2: `effectiveStat` is the sum of the base stat and every flat
contribution from the class grant and equipped items, multiplied by the
product of every buff's percent multiplier; a grant with no entry for the
stat contributes the neutral element (0 flat, 1 percent) and is never an
error (all aggregation functions are total). -/
theorem effectiveStat_sum_then_mult (a : AggActor) (s : STATS)
    (p : ActorProperty)
    (hf : ∀ f ∈ entriesFlat p, f.stat ≠ s)
    (hm : ∀ m ∈ entriesMult p, m.stat ≠ s) :
    effectiveStat a s =
      ((a.baseStats s : Rat) +
        (((a.classGrant :: a.equipment).map fun g => ((flatOf g s : Int) : Rat)).sum))
        * ((a.buffs.map fun b => multOf b s).prod)
    ∧ flatOf p s = 0 ∧ multOf p s = 1 := by
  refine ⟨?_, ?_, ?_⟩
  · show ((a.equipment.foldl (fun acc it => acc + flatOf it s)
        (a.baseStats s + flatOf a.classGrant s) : Int) : Rat)
      * (a.buffs.foldl (fun acc b => acc * multOf b s) 1) = _
    rw [foldl_add_eq_sum, foldl_mul_eq_prod, one_mul]
    push_cast
    simp only [List.map_map, Function.comp_def, List.map_cons, List.sum_cons]
    ring
  · unfold flatOf
    rw [foldl_add_eq_sum]
    have hz : ∀ x ∈ (entriesFlat p).map
        (fun f => if f.stat = s then f.value else 0), x = 0 := by
      intro x hx
      rcases List.mem_map.1 hx with ⟨f, hfmem, hfx⟩
      rw [if_neg (hf f hfmem)] at hfx
      exact hfx.symm
    rw [List.sum_eq_zero hz]
    simp
  · unfold multOf
    rw [foldl_mul_eq_prod]
    have hz : ∀ x ∈ (entriesMult p).map
        (fun m => if m.stat = s then m.value else 1), x = 1 := by
      intro x hx
      rcases List.mem_map.1 hx with ⟨m, hmmem, hmx⟩
      rw [if_neg (hm m hmmem)] at hmx
      exact hmx.symm
    rw [List.prod_eq_one hz]
    simp

/-- Witness for C2 at a concrete actor: base 5, one item granting +3 STR,
one buff granting x2 STR, and a grant with no STR entries contributing
the neutral elements. -/
theorem effectiveStat_sum_then_mult_instance :
    effectiveStat aggSample .STR =
      ((aggSample.baseStats .STR : Rat) +
        (((aggSample.classGrant :: aggSample.equipment).map
          fun g => ((flatOf g .STR : Int) : Rat)).sum))
        * ((aggSample.buffs.map fun b => multOf b .STR).prod)
    ∧ flatOf { stats := none } .STR = 0
    ∧ multOf { stats := none } .STR = 1 :=
  effectiveStat_sum_then_mult aggSample .STR { stats := none }
    (by simp [entriesFlat]) (by simp [entriesMult])

/-- Writing a value kind never changes the key set of a value set. -/
theorem keysOf_setVal (vals : List (String × Rat)) (k : String) (v : Rat) :
    keysOf (setVal vals k v) = keysOf vals := by
  induction vals with
  | nil => rfl
  | cons p rest ih =>
      rcases p with ⟨k2, x⟩
      by_cases h : k2 = k
      · simp [setVal, h, keysOf]
      · simpa [setVal, h, keysOf] using ih

/-- Applying any batch of value updates never changes the key set. -/
theorem keysOf_applyUpdates (ups : List (String × Rat)) :
    ∀ vals, keysOf (applyUpdates vals ups) = keysOf vals := by
  induction ups with
  | nil => intro vals; rfl
  | cons u us ih =>
      intro vals
      show keysOf (applyUpdates (setVal vals u.1 u.2) us) = keysOf vals
      rw [ih, keysOf_setVal]

/-- Folding modification effects over an event mutates only the current
values: base values, depth, cancelled marker and type are untouched, and
the key set of the current values is preserved. -/
theorem modFold_fields (ints : List Interceptor) (fs : List Effect) :
    ∀ e : Event,
      (fs.foldl (applyMod ints) e).baseValue = e.baseValue
      ∧ (fs.foldl (applyMod ints) e).depth = e.depth
      ∧ (fs.foldl (applyMod ints) e).cancelled = e.cancelled
      ∧ (fs.foldl (applyMod ints) e).type = e.type
      ∧ keysOf (fs.foldl (applyMod ints) e).currentValue =
          keysOf e.currentValue := by
  induction fs with
  | nil => intro e; exact ⟨rfl, rfl, rfl, rfl, rfl⟩
  | cons f fs ih =>
      intro e
      have h := ih (applyMod ints e f)
      have hk : keysOf (applyMod ints e f).currentValue =
          keysOf e.currentValue := keysOf_applyUpdates _ _
      refine ⟨?_, ?_, ?_, ?_, ?_⟩
      · rw [List.foldl_cons, h.1]; rfl
      · rw [List.foldl_cons, h.2.1]; rfl
      · rw [List.foldl_cons, h.2.2.1]; rfl
      · rw [List.foldl_cons, h.2.2.2.1]; rfl
      · rw [List.foldl_cons, h.2.2.2.2, hk]

/-- Sequential validation is first-cancel-wins: once every handler before
`f` allows and `f` refuses, the overall decision is refusal, whatever the
handlers after `f` would have answered. -/
theorem validationAllows_first_false (pre : List Effect) (f : Effect)
    (post : List Effect) (e : Event)
    (hpre : ∀ g ∈ pre, g.valHandler e = true)
    (hf : f.valHandler e = false) :
    validationAllows (pre ++ f :: post) e = false := by
  induction pre with
  | nil => simp [validationAllows, hf]
  | cons g gs ih =>
      have hg : g.valHandler e = true := hpre g (by simp)
      simp only [List.cons_append, validationAllows, hg, if_true]
      exact ih fun x hx => hpre x (by simp [hx])

/-- A dequeued event beyond the depth maximum is recorded as dropped and
nothing else in the pipeline state changes. -/
theorem processEvent_deep (maxD : Nat) (effects : List Effect)
    (st : PipelineState) (e : Event) (h : maxD < e.depth) :
    processEvent maxD effects st e =
      { st with droppedLog := st.droppedLog ++ [e] } := by
  unfold processEvent
  rw [if_pos h]

/-- Processing any single event preserves the bound on resolved depths:
only events that passed the depth guard are appended to the resolved
log. -/
theorem processEvent_resolved_depth (maxD : Nat) (effects : List Effect)
    (st : PipelineState) (e : Event)
    (h : allDepthLE st.resolvedLog maxD = true) :
    allDepthLE (processEvent maxD effects st e).resolvedLog maxD = true := by
  unfold processEvent
  by_cases hd : maxD < e.depth
  · simpa [hd] using h
  · rw [if_neg hd]
    set e2 := runValPhase effects (afterPhases effects e) with he2
    by_cases hc : e2.cancelled
    · simp [hc, h]
    · have hdep : e2.depth = e.depth := by
        rw [he2]
        unfold runValPhase afterPhases runModPhase
        exact (modFold_fields _ _ _).2.1
      simp only [hc, if_neg, Bool.false_eq_true, if_false]
      simp [allDepthLE, List.all_append] at h ⊢
      exact ⟨h, by omega⟩

/-- Draining for any amount of fuel preserves the bound on resolved
depths. -/
theorem drain_resolved_depth (maxD : Nat) (effects : List Effect) :
    ∀ (fuel : Nat) (st : PipelineState),
      allDepthLE st.resolvedLog maxD = true →
      allDepthLE (drain maxD effects fuel st).resolvedLog maxD = true := by
  intro fuel
  induction fuel with
  | zero => intro st h; simpa [drain] using h
  | succ n ih =>
      intro st h
      rcases hq : st.queue with _ | ⟨e, rest⟩ <;> simp only [drain, hq]
      · exact h
      · exact ih _ (processEvent_resolved_depth _ _ _ _ h)

/-- C1: in the modification phase the priority-100 multiplicative effect
executes before the priority-50 additive effect regardless of
registration order, so the final current value is (base x multiplier) +
flat; on a base of 50 with a x1.5 and a +10 effect the result is exactly
85 and never 90. -/
theorem mod_mult_before_add (m a b : Rat) (s t : String) :
    getVal (afterPhases [multiplyEffect "m1" "damage" "damage" m,
        flatAddEffect "a1" "damage" "damage" a] (dmgEvent s t b)).currentValue
      "damage" = b * m + a
    ∧ getVal (afterPhases [flatAddEffect "a1" "damage" "damage" a,
        multiplyEffect "m1" "damage" "damage" m] (dmgEvent s t b)).currentValue
      "damage" = b * m + a
    ∧ getVal (afterPhases [multiplyEffect "m1" "damage" "damage" (3 / 2),
        flatAddEffect "a1" "damage" "damage" 10]
        (mkEvent damageSpec 0)).currentValue "damage" = 85
    ∧ getVal (afterPhases [multiplyEffect "m1" "damage" "damage" (3 / 2),
        flatAddEffect "a1" "damage" "damage" 10]
        (mkEvent damageSpec 0)).currentValue "damage" ≠ 90 := by
  refine ⟨?_, ?_, ?_, ?_⟩ <;>
    simp [afterPhases, runModPhase, runMetaPhase, applicableSorted, sortDesc,
      insertDesc, isApplicable, applyMod, applyUpdates, setVal, getVal,
      interceptApply, multiplyEffect, flatAddEffect, dmgEvent, mkEvent,
      damageSpec] <;>
    norm_num

/-- C3: a dequeued event whose depth exceeds the configured maximum is
dropped before any phase runs — the queue of sibling events, the actors
and the resolved log are all left untouched — and over any drain run no
event with depth beyond the maximum ever reaches the resolved log. -/
theorem depth_guard_drops_and_bounds (maxD fuel : Nat)
    (effects : List Effect) (st : PipelineState) (e : Event)
    (h1 : maxD < e.depth)
    (h2 : allDepthLE st.resolvedLog maxD = true) :
    processEvent maxD effects st e =
      { st with droppedLog := st.droppedLog ++ [e] }
    ∧ allDepthLE (drain maxD effects fuel st).resolvedLog maxD = true :=
  ⟨processEvent_deep maxD effects st e h1,
   drain_resolved_depth maxD effects fuel st h2⟩

/-- Witness for C3: with the default maximum 10, an indefinitely
recursing ping reaction chain started from a root event resolves no event
beyond depth 10 in 30 drain steps, and a concrete depth-11 event is
dropped with the pipeline state otherwise untouched. -/
theorem depth_guard_drops_and_bounds_witness :
    processEvent 10 [pingReaction "p1" "damage"] stRoot deepEvent =
      { stRoot with droppedLog := stRoot.droppedLog ++ [deepEvent] }
    ∧ allDepthLE
        (drain 10 [pingReaction "p1" "damage"] 30 stRoot).resolvedLog 10 =
      true :=
  depth_guard_drops_and_bounds 10 30 [pingReaction "p1" "damage"] stRoot
    deepEvent (by decide) (by rfl)

/-- C4: when, among the applicable validation handlers in order, every
handler before `f` allows and `f` returns false, the event is marked
cancelled — whatever the handlers after `f` would have answered, they are
never consulted — and processing the event leaves the pipeline state
untouched: no resolution, no actor mutation, no spawned children. -/
theorem validation_short_circuit_cancels (maxD : Nat)
    (effects : List Effect) (st : PipelineState) (e : Event)
    (pre : List Effect) (f : Effect) (post : List Effect)
    (hd : e.depth ≤ maxD)
    (hv : applicableSorted effects .validation (afterPhases effects e) =
      pre ++ f :: post)
    (hpre : ∀ g ∈ pre, g.valHandler (afterPhases effects e) = true)
    (hf : f.valHandler (afterPhases effects e) = false) :
    (runValPhase effects (afterPhases effects e)).cancelled = true
    ∧ processEvent maxD effects st e = st := by
  have hallow : validationAllows
      (applicableSorted effects .validation (afterPhases effects e))
      (afterPhases effects e) = false := by
    rw [hv]; exact validationAllows_first_false pre f post _ hpre hf
  have hcanc : (runValPhase effects (afterPhases effects e)).cancelled =
      true := by
    simp [runValPhase, hallow]
  refine ⟨hcanc, ?_⟩
  unfold processEvent
  rw [if_neg (by omega : ¬ maxD < e.depth)]
  simp only [hcanc, if_true]

/-- Witness for C4: a blocking validation effect (the 30%-chance block
with its roll stubbed to block) cancels a concrete damage event and the
pipeline state — target hp included — is unchanged. -/
theorem validation_short_circuit_cancels_witness :
    (runValPhase [blockEffect "b1" "damage"]
      (afterPhases [blockEffect "b1" "damage"]
        (mkEvent damageSpec 0))).cancelled = true
    ∧ processEvent 10 [blockEffect "b1" "damage"] stEmpty
        (mkEvent damageSpec 0) = stEmpty :=
  validation_short_circuit_cancels 10 [blockEffect "b1" "damage"] stEmpty
    (mkEvent damageSpec 0) [] (blockEffect "b1" "damage") []
    (by decide) (by rfl) (by simp) (by rfl)

/-- C5: current values and base values always share the same key set —
at construction, after the modification phase (for any effects), and
through validation, which changes no value at all; and when no
modification effect is applicable the current values still equal the base
values after phase 2. -/
theorem value_keys_invariant (effects effectsN : List Effect)
    (ints intsN : List Interceptor) (e : Event) (sp : EventSpec) (d : Nat)
    (h : e.currentValue = e.baseValue)
    (hnone : applicableSorted effectsN .modification e = []) :
    keysOf (mkEvent sp d).currentValue = keysOf (mkEvent sp d).baseValue
    ∧ keysOf (runModPhase effects ints e).currentValue =
        keysOf (runModPhase effects ints e).baseValue
    ∧ (runValPhase effects (runModPhase effects ints e)).currentValue =
        (runModPhase effects ints e).currentValue
    ∧ (runModPhase effectsN intsN e).currentValue =
        (runModPhase effectsN intsN e).baseValue := by
  refine ⟨rfl, ?_, rfl, ?_⟩
  · show keysOf ((applicableSorted effects .modification e).foldl
        (applyMod ints) e).currentValue =
      keysOf ((applicableSorted effects .modification e).foldl
        (applyMod ints) e).baseValue
    rw [(modFold_fields ints _ e).2.2.2.2, (modFold_fields ints _ e).1, h]
  · show ((applicableSorted effectsN .modification e).foldl
        (applyMod intsN) e).currentValue =
      ((applicableSorted effectsN .modification e).foldl
        (applyMod intsN) e).baseValue
    rw [hnone]
    exact h

/-- Witness for C5 at a concrete event with a +10 modification effect
applicable and, separately, an empty effect list. -/
theorem value_keys_invariant_witness :
    keysOf (mkEvent damageSpec 3).currentValue =
      keysOf (mkEvent damageSpec 3).baseValue
    ∧ keysOf (runModPhase [flatAddEffect "a1" "damage" "damage" 10] []
        (mkEvent damageSpec 0)).currentValue =
      keysOf (runModPhase [flatAddEffect "a1" "damage" "damage" 10] []
        (mkEvent damageSpec 0)).baseValue
    ∧ (runValPhase [flatAddEffect "a1" "damage" "damage" 10]
        (runModPhase [flatAddEffect "a1" "damage" "damage" 10] []
          (mkEvent damageSpec 0))).currentValue =
      (runModPhase [flatAddEffect "a1" "damage" "damage" 10] []
        (mkEvent damageSpec 0)).currentValue
    ∧ (runModPhase [] [] (mkEvent damageSpec 0)).currentValue =
      (runModPhase [] [] (mkEvent damageSpec 0)).baseValue :=
  value_keys_invariant [flatAddEffect "a1" "damage" "damage" 10] [] [] []
    (mkEvent damageSpec 0) damageSpec 3 rfl rfl

/-- `addEffect` preserves the partition view: the new pair lands both in
the flat collection and in its source's bucket. -/
theorem partition_add (s : Store) (e0 : StoredEffect) (src : String)
    (hp : partitionConsistent s) :
    partitionConsistent (s.addEffect e0 src) := by
  intro S x
  by_cases hS : S = src
  · subst hS
    have h1 : (s.addEffect e0 S).flat = s.flat ++ [(S, e0)] := rfl
    have h2 : (s.addEffect e0 S).sourceIndex S = s.sourceIndex S ++ [e0] := by
      simp [Store.addEffect]
    rw [h1, h2]
    simp only [List.mem_append, List.mem_singleton, Prod.mk.injEq,
      eq_self_iff_true, true_and]
    rw [hp S x]
  · have h1 : (s.addEffect e0 src).flat = s.flat ++ [(src, e0)] := rfl
    have h2 : (s.addEffect e0 src).sourceIndex S = s.sourceIndex S := by
      simp [Store.addEffect, hS]
    rw [h1, h2]
    simp only [List.mem_append, List.mem_singleton, Prod.mk.injEq, hS,
      false_and, or_false]
    exact hp S x

/-- `addEffect` keeps identities distinct when the added identity is
fresh. -/
theorem idsNodup_add (s : Store) (e0 : StoredEffect) (src : String)
    (hn : idsNodup s) (hfresh : ∀ p ∈ s.flat, p.2.id ≠ e0.id) :
    idsNodup (s.addEffect e0 src) := by
  show ((s.flat ++ [(src, e0)]).map fun p => p.2.id).Nodup
  rw [List.map_append, List.nodup_append]
  refine ⟨hn, List.nodup_singleton _, ?_⟩
  intro a ha hb
  simp only [List.map_cons, List.map_nil, List.mem_singleton] at hb
  rcases List.mem_map.1 ha with ⟨p, hpmem, hpa⟩
  exact hfresh p hpmem (hpa.trans hb)

/-- `removeEffect` preserves the partition view. -/
theorem partition_remove (s : Store) (e0 : StoredEffect)
    (hp : partitionConsistent s) :
    partitionConsistent (s.removeEffect e0) := by
  intro S x
  show (S, x) ∈ s.flat.filter (fun p => decide (p.2.id ≠ e0.id)) ↔
    x ∈ (s.sourceIndex S).filter (fun y => decide (y.id ≠ e0.id))
  simp only [List.mem_filter, decide_eq_true_eq]
  rw [hp S x]

/-- `removeEffect` keeps identities distinct. -/
theorem idsNodup_remove (s : Store) (e0 : StoredEffect) (hn : idsNodup s) :
    idsNodup (s.removeEffect e0) := by
  have hn2 : (s.flat.map fun p => p.2.id).Nodup := hn
  show ((s.flat.filter fun p => decide (p.2.id ≠ e0.id)).map
    fun p => p.2.id).Nodup
  exact ((List.filter_sublist s.flat).map fun p => p.2.id).nodup hn2

/-- `removeEffectsFromSource` preserves the partition view (identity
distinctness rules out the same effect hiding under two sources). -/
theorem partition_removeSource (s : Store) (src : String)
    (hp : partitionConsistent s) (hn : idsNodup s) :
    partitionConsistent (s.removeEffectsFromSource src) := by
  intro S x
  have h1 : (s.removeEffectsFromSource src).flat =
      s.flat.filter
        (fun p => (s.sourceIndex src).all fun y => decide (y.id ≠ p.2.id)) :=
    rfl
  by_cases hS : S = src
  · subst hS
    have h2 : (s.removeEffectsFromSource S).sourceIndex S = [] := by
      simp [Store.removeEffectsFromSource]
    rw [h1, h2]
    simp only [List.not_mem_nil, iff_false, List.mem_filter,
      List.all_eq_true, decide_eq_true_eq, not_and]
    intro hin hall
    exact hall x ((hp S x).1 hin) rfl
  · have h2 : (s.removeEffectsFromSource src).sourceIndex S =
        s.sourceIndex S := by
      simp [Store.removeEffectsFromSource, hS]
    rw [h1, h2]
    simp only [List.mem_filter, List.all_eq_true, decide_eq_true_eq]
    constructor
    · rintro ⟨hin, _⟩
      exact (hp S x).1 hin
    · intro hidx
      have hin : (S, x) ∈ s.flat := (hp S x).2 hidx
      refine ⟨hin, ?_⟩
      intro y hy hid
      have hyin : (src, y) ∈ s.flat := (hp src y).2 hy
      have hn2 : (s.flat.map fun p => p.2.id).Nodup := hn
      have heq : ((S, x) : String × StoredEffect) = (src, y) :=
        List.inj_on_of_nodup_map hn2 hin hyin (by simpa using hid.symm)
      exact hS (congrArg Prod.fst heq)

/-- `removeEffectsFromSource` keeps identities distinct. -/
theorem idsNodup_removeSource (s : Store) (src : String) (hn : idsNodup s) :
    idsNodup (s.removeEffectsFromSource src) := by
  have hn2 : (s.flat.map fun p => p.2.id).Nodup := hn
  show ((s.flat.filter fun p =>
    (s.sourceIndex src).all fun y => decide (y.id ≠ p.2.id)).map
    fun p => p.2.id).Nodup
  exact ((List.filter_sublist s.flat).map fun p => p.2.id).nodup hn2

/-- The empty store satisfies the invariant. -/
theorem storeInv_empty : StoreInv Store.empty := by
  constructor
  · intro S e
    simp [Store.empty]
  · show (([] : List (String × StoredEffect)).map fun p => p.2.id).Nodup
    simp

/-- Any operation sequence respecting the no-double-add usage rule
preserves the Effect Store invariant. -/
theorem storeInv_run :
    ∀ (ops : List StoreOp) (s : Store), StoreInv s →
      validOps s ops = true → StoreInv (s.run ops) := by
  intro ops
  induction ops with
  | nil =>
      intro s h _
      exact h
  | cons op ops ih =>
      intro s h hv
      simp only [validOps, Bool.and_eq_true] at hv
      refine ih _ ?_ hv.2
      rcases op with ⟨e, src⟩ | e | src
      · have hfresh : ∀ p ∈ s.flat, p.2.id ≠ e.id := by
          have h1 := hv.1
          simp only [freshFor, List.all_eq_true, decide_eq_true_eq] at h1
          exact h1
        exact ⟨partition_add s e src h.1, idsNodup_add s e src h.2 hfresh⟩
      · exact ⟨partition_remove s e h.1, idsNodup_remove s e h.2⟩
      · exact ⟨partition_removeSource s src h.1 h.2,
          idsNodup_removeSource s src h.2⟩

/-- Removing a source scrubs its bucket's effects from both the flat
collection and every listener bucket, for any store. -/
theorem cleanRemoval_all (s : Store) (S : String) : cleanRemoval s S := by
  intro e he
  constructor
  · intro p hpmem
    have hpmem2 : p ∈ s.flat.filter
        (fun q => (s.sourceIndex S).all fun y => decide (y.id ≠ q.2.id)) :=
      hpmem
    have hall := (List.mem_filter.1 hpmem2).2
    simp only [List.all_eq_true, decide_eq_true_eq] at hall
    exact (hall e he).symm
  · intro t x hx
    have hx2 : x ∈ (s.listenerIndex t).filter
        (fun q => (s.sourceIndex S).all fun y => decide (y.id ≠ q.id)) := hx
    have hall := (List.mem_filter.1 hx2).2
    simp only [List.all_eq_true, decide_eq_true_eq] at hall
    exact (hall e he).symm

/-- C6: after any sequence of `addEffect`, `removeEffect` and
`removeEffectsFromSource` operations (respecting the spec's no-double-add
usage rule), the source index is a partition-consistent view of the flat
effect list, and removing a source leaves none of its effects in the flat
collection or in the Pipeline's listener index for any event type. -/
theorem store_partition_and_cleanup (ops : List StoreOp) (S : String)
    (hv : validOps Store.empty ops = true) :
    partitionConsistent (Store.empty.run ops)
    ∧ cleanRemoval (Store.empty.run ops) S :=
  ⟨(storeInv_run ops Store.empty storeInv_empty hv).1,
   cleanRemoval_all _ S⟩

/-- Witness for C6 on a concrete operation sequence: equipping a sword
granting two effects, applying a buff, then unequipping the sword. -/
theorem store_partition_and_cleanup_witness :
    partitionConsistent (Store.empty.run opsSample)
    ∧ cleanRemoval (Store.empty.run opsSample) "item:sword1" :=
  store_partition_and_cleanup opsSample "item:sword1" (by rfl)

/-- Setting an actor's ticks-remaining makes that value the one read
back. -/
theorem lookup_update (l : List (String × Rat)) (k : String) (v : Rat) :
    lookupTicks (updateTicks l k v) k = some v := by
  induction l with
  | nil => simp [updateTicks, lookupTicks]
  | cons p rest ih =>
      rcases p with ⟨k2, x⟩
      by_cases h : k2 = k
      · simp [updateTicks, h, lookupTicks]
      · simp [updateTicks, h, lookupTicks, ih]

/-- C7: `scheduleNext` sets the actor's ticks-remaining to
(10000 / effectiveSpeed) x multiplier; concretely speed 100 gives delay
100, speed 200 gives 50, speed 50 gives 200, and multiplier 0.5 at speed
100 gives 50. -/
theorem scheduleNext_delay_formula (s : Scheduler) (sa : SchedActor)
    (m : Rat) :
    lookupTicks (scheduleNext s sa m).entries sa.actor.uuid =
      some (10000 / effectiveSpeed sa * m)
    ∧ actionDelay ⟨{}, 100⟩ 1 = 100
    ∧ actionDelay ⟨{}, 200⟩ 1 = 50
    ∧ actionDelay ⟨{}, 50⟩ 1 = 200
    ∧ actionDelay ⟨{}, 100⟩ (1 / 2) = 50 := by
  refine ⟨lookup_update _ _ _, ?_, ?_, ?_, ?_⟩ <;>
    norm_num [actionDelay, effectiveSpeed]

/-- C10: a newly constructed Actor defaults to `useTurnOrder = false` and
to absent (not empty) `effects` and `properties` collections, and such an
actor is never added to the turn schedule. -/
theorem actor_defaults_and_schedule_optin (s : Scheduler) (sp : Rat) :
    ({} : Actor).useTurnOrder = some false
    ∧ ({} : Actor).effects = none
    ∧ ({} : Actor).properties = none
    ∧ addActor s ⟨{}, sp⟩ = s := by
  refine ⟨rfl, rfl, rfl, ?_⟩
  simp [addActor]

end BPG
